import Mathlib

/-!
Shallow embedding of the tutorial snippets of the CMS blog repository:
the GrayView 2D sub-image iterator (post 009), the bump-pointer buffers
(posts 013/014), the socket wrappers (post 012), the CUDA launch helper
(post 013) and the edge-detection pass (post 011).  Machine integers
(u32, size_t, u8) are modelled as Nat; every arithmetic step stays far
below the wrap-around point under the stated hypotheses, and where the
source could wrap (noted at each definition) the observable outcome is
unchanged.  Pixel buffers are modelled as functions from flat offsets
to values, pointers as base offsets, and a null pointer as Option.none.
-/

/-! ## Post 009: image views — Range2Du32 and the GrayView iterator -/

/-- Rectangular pixel range within an image (class Range2Du32). -/
structure Range2Du32 where
  x_begin : Nat
  x_end : Nat
  y_begin : Nat
  y_end : Nat
deriving DecidableEq

/-- Mutable state of GrayView::iterator: the location within the image
(fields x_ and y_).  The pointer, range and width fields are copied from
the view and never change, so they are passed separately. -/
structure GrayIter where
  x : Nat
  y : Nat
deriving DecidableEq

/-- GrayView::iterator::next(): advance x, wrapping to the next row when
x reaches range_.x_end. -/
def GrayIter.next (r : Range2Du32) (it : GrayIter) : GrayIter :=
  let x := it.x + 1
  if r.x_end ≤ x then { x := r.x_begin, y := it.y + 1 }
  else { x := x, y := it.y }

/-- iterator(GrayView const&): position set to the beginning of the range. -/
def GrayIter.start (r : Range2Du32) : GrayIter :=
  { x := r.x_begin, y := r.y_begin }

/-- GrayView::iterator::end(): position set to the last pixel of the range,
then advanced once. -/
def GrayIter.stop (r : Range2Du32) : GrayIter :=
  GrayIter.next r { x := r.x_end - 1, y := r.y_end - 1 }

/-- The k-th iterate of operator++ starting from begin(). -/
def GrayIter.iterN (r : Range2Du32) (k : Nat) : GrayIter :=
  (GrayIter.next r)^[k] (GrayIter.start r)

/-- GrayView::iterator::xy_ptr(): the offset (from the image data pointer)
of the pixel the iterator dereferences: y_ * image_width_ + x_. -/
def GrayIter.xy_off (image_width : Nat) (it : GrayIter) : Nat :=
  it.y * image_width + it.x

/-! ## Posts 013/014: bump-pointer buffers.
Pointers are modelled as base offsets wrapped in Option (none is nullptr);
capacity and size are element counts.  The u32 / size_t subtraction
capacity - size in the sources can wrap only when size > capacity, a state
in which is_valid is already false and the function returns early without
mutating, so Nat truncated subtraction yields the same observable outcome. -/

/-- FloatBuffer (post 013): capacity and size in elements plus the data
pointer. -/
structure FloatBuffer where
  capacity : Nat
  size : Nat
  data : Option Nat
deriving DecidableEq

/-- push_elements(FloatBuffer&, u32): hand out the next n_elements slots of
the pre-allocated block, or nullptr when the buffer is invalid or too full. -/
def push_elements (buffer : FloatBuffer) (n_elements : Nat) :
    Option Nat × FloatBuffer :=
  let is_valid := buffer.data.isSome && decide (buffer.capacity ≠ 0) &&
    decide (buffer.size < buffer.capacity)
  let bytes_available := decide (buffer.capacity - buffer.size ≥ n_elements)
  if !is_valid || !bytes_available then (none, buffer)
  else (some (buffer.data.getD 0 + buffer.size),
    { buffer with size := buffer.size + n_elements })

/-- host_malloc(FloatBuffer&, u32) (post 013): the malloc outcome is passed
in as alloc (none models a failed allocation). -/
def host_malloc (alloc : Option Nat) (buffer : FloatBuffer)
    (n_elements : Nat) : Bool × FloatBuffer :=
  if n_elements = 0 ∨ buffer.data ≠ none then (false, buffer)
  else
    let buffer := { buffer with data := alloc }
    let buffer := if buffer.data.isSome then
      { buffer with capacity := n_elements } else buffer
    (true, buffer)

/-- MemoryBuffer (post 014): data_, capacity_ and size_ fields. -/
structure MemoryBuffer where
  data_ : Option Nat
  capacity_ : Nat
  size_ : Nat
deriving DecidableEq

/-- MemoryBuffer(size_t): the constructor assigns data_ and capacity_
unconditionally (a failed malloc is only caught by assert, compiled out in
release); size_ keeps its initializer 0. -/
def MemoryBuffer.construct (alloc : Option Nat) (n_elements : Nat) :
    MemoryBuffer :=
  { data_ := alloc, capacity_ := n_elements, size_ := 0 }

/-- MemoryBuffer::push(size_t): same bump logic as push_elements. -/
def MemoryBuffer.push (b : MemoryBuffer) (n_elements : Nat) :
    Option Nat × MemoryBuffer :=
  let is_valid := b.data_.isSome && decide (b.capacity_ ≠ 0) &&
    decide (b.size_ < b.capacity_)
  let elements_available := decide (b.capacity_ - b.size_ ≥ n_elements)
  if !is_valid || !elements_available then (none, b)
  else (some (b.data_.getD 0 + b.size_),
    { b with size_ := b.size_ + n_elements })

/-- MemoryBuffer::reset(): size_ back to 0. -/
def MemoryBuffer.reset (b : MemoryBuffer) : MemoryBuffer :=
  { b with size_ := 0 }

/-- MemoryBuffer::free(): release the block and zero both counters. -/
def MemoryBuffer.free (_b : MemoryBuffer) : MemoryBuffer :=
  { data_ := none, capacity_ := 0, size_ := 0 }

/-! ## Post 013: launch_kernel block count -/

/-- Threads per block constant of launch_kernel. -/
def THREADS_PER_BLOCK : Nat := 1024

/-- launch_kernel's block count: (n_threads + THREADS_PER_BLOCK - 1) /
THREADS_PER_BLOCK, with n_threads = n_elements. -/
def launch_n_blocks (n_threads : Nat) : Nat :=
  (n_threads + THREADS_PER_BLOCK - 1) / THREADS_PER_BLOCK

/-! ## Post 012: cross-platform socket wrappers (Linux branch:
socket_t = int, INVALID_SOCKET = -1, SOCKET_ERROR = -1).  The result of
each underlying OS call (socket, bind, listen, accept) is passed in as an
argument; sockaddr structures carry no observable state for the claims and
are omitted. -/

/-- INVALID_SOCKET constant. -/
def INVALID_SOCKET : Int := -1

/-- SOCKET_ERROR constant. -/
def SOCKET_ERROR : Int := -1

/-- ServerSocketInfo: socket handles, state flags and port (the field
named open in the source is a Lean keyword, spelled open_ here). -/
structure ServerSocketInfo where
  server_socket : Int
  client_socket : Int
  open_ : Bool
  bind : Bool
  listen : Bool
  server_running : Bool
  client_connected : Bool
  port : Int
deriving DecidableEq

/-- os_socket_create(socket_t&): stores the socket() result in the handle
and reports success as handle != INVALID_SOCKET. -/
def os_socket_create (ret : Int) : Bool × Int :=
  (decide (ret ≠ INVALID_SOCKET), ret)

/-- os_server_open: open flag takes os_socket_create's result; the server
address and port are set only on success; returns the open flag. -/
def os_server_open (ret : Int) (server_info : ServerSocketInfo)
    (port : Int) : Bool × ServerSocketInfo :=
  let created := os_socket_create ret
  let server_info :=
    { server_info with open_ := created.1, server_socket := created.2 }
  let server_info :=
    if server_info.open_ then { server_info with port := port }
    else server_info
  (server_info.open_, server_info)

/-- os_server_bind: bind flag takes the success of the bind() call
(result != SOCKET_ERROR); returns the bind flag. -/
def os_server_bind (ret : Int) (server_info : ServerSocketInfo) :
    Bool × ServerSocketInfo :=
  let server_info :=
    { server_info with bind := decide (ret ≠ SOCKET_ERROR) }
  (server_info.bind, server_info)

/-- os_server_listen: listen flag takes the success of the listen() call
(result != SOCKET_ERROR); returns the listen flag. -/
def os_server_listen (ret : Int) (server_info : ServerSocketInfo) :
    Bool × ServerSocketInfo :=
  let server_info :=
    { server_info with listen := decide (ret ≠ SOCKET_ERROR) }
  (server_info.listen, server_info)

/-- os_server_accept: client_connected cleared, the accept() result stored
as the client socket, then client_connected takes the success of the call
(client socket != INVALID_SOCKET); returns client_connected. -/
def os_server_accept (ret : Int) (server_info : ServerSocketInfo) :
    Bool × ServerSocketInfo :=
  let server_info := { server_info with client_connected := false }
  let server_info := { server_info with client_socket := ret }
  let server_info := { server_info with
    client_connected := decide (server_info.client_socket ≠ INVALID_SOCKET) }
  (server_info.client_connected, server_info)

/-- os_server_close: closes the server socket and clears the listen, bind
and open flags. -/
def os_server_close (server_info : ServerSocketInfo) : ServerSocketInfo :=
  { server_info with listen := false, bind := false, open_ := false }

/-! ## Post 009: invert_gray over a GrayView.
The pixel buffer is a function from flat offsets to values; the image
data pointer, width and height live outside the buffer and are never
written by invert_gray, so only the buffer is threaded through. -/

/-- A flat pixel buffer: offset to stored value. -/
abbrev Mem := Nat → Nat

/-- Store value v at offset o. -/
def Mem.write (m : Mem) (o v : Nat) : Mem :=
  fun i => if i = o then v else m i

/-- invert_gray's lambda applied through the iterator's xy_ptr():
p = 255 - p.  u8 pixel values lie below 256, where Nat subtraction
coincides with the C int arithmetic followed by the u8 store. -/
def invertStep (W : Nat) (it : GrayIter) (m : Mem) : Mem :=
  m.write (GrayIter.xy_off W it) (255 - m (GrayIter.xy_off W it))

/-- std::for_each(view.begin(), view.end(), invert): apply the lambda and
advance with operator++ until the iterator equals end().  fuel bounds the
loop steps; invert_gray passes a bound that always suffices. -/
def forEachInvert (r : Range2Du32) (W : Nat) :
    Nat → GrayIter → Mem → Mem
  | 0, _, m => m
  | fuel + 1, it, m =>
    if it = GrayIter.stop r then m
    else forEachInvert r W fuel (GrayIter.next r it) (invertStep W it m)

/-- invert_gray(GrayView const&) on an image of width W: the for_each loop
from begin(); (x_end + 1) * (y_end + 1) steps of fuel always exceed the
range's width * height. -/
def invert_gray (r : Range2Du32) (W : Nat) (m : Mem) : Mem :=
  forEachInvert r W ((r.x_end + 1) * (r.y_end + 1)) (GrayIter.start r) m

/-! ## Post 011: edge detection.
An Image is width, height and a flat pixel buffer.  The float arithmetic
of the gradient kernels is exact: every kernel coefficient is a multiple
of 1/4, every pixel is below 256, so every partial sum is a dyadic
rational of magnitude at most 510 with granularity 1/4 — representable
exactly in an IEEE single — and the computation is modelled in ℚ. -/

/-- Image (post 011): width, height and the pixel buffer. -/
structure Image where
  width : Nat
  height : Nat
  data : Mem

/-- row_begin(Image const&, u32): offset of the start of row y. -/
def row_begin (image : Image) (y : Nat) : Nat :=
  y * image.width

/-- pixel_at_xy(Image const&, u32, u32): intensity at the x offset of
row y. -/
def pixel_at_xy (image : Image) (x y : Nat) : Nat :=
  image.data (row_begin image y + x)

/-- Left-right gradient kernel GRAD_LR_3X3. -/
def GRAD_LR_3X3 : List ℚ :=
  [-0.25, 0.0, 0.25, -0.50, 0.0, 0.50, -0.25, 0.0, 0.25]

/-- Top-bottom gradient kernel GRAD_TB_3X3. -/
def GRAD_TB_3X3 : List ℚ :=
  [-0.25, -0.50, -0.25, 0.0, 0.0, 0.0, 0.25, 0.50, 0.25]

/-- Diagonal gradient kernel GRAD_TBLR_3X3. -/
def GRAD_TBLR_3X3 : List ℚ :=
  [-0.50, -0.25, 0.0, -0.25, 0.0, 0.25, 0.0, 0.25, 0.50]

/-- Diagonal gradient kernel GRAD_TBRL_3X3. -/
def GRAD_TBRL_3X3 : List ℚ :=
  [0.0, -0.25, -0.50, 0.25, 0.0, -0.25, 0.50, 0.25, 0.0]

/-- max_abs(r32, r32, r32, r32): the largest absolute value of four
numbers. -/
def max_abs (a b c d : ℚ) : ℚ :=
  let max_ab := max |a| |b|
  let max_cd := max |c| |d|
  max max_ab max_cd

/-- gradient_at_xy(Image const&, u32, u32): one pass over the 3x3
neighborhood of (x, y) accumulating all four kernels at array index a
(the source's v, u loops with v = y - 1 + a / 3 and u = x - 1 + a % 3),
then the maximum absolute value. -/
def gradient_at_xy (img : Image) (x y : Nat) : ℚ :=
  let acc := (List.range 9).foldl
    (fun acc a =>
      let p : ℚ := (pixel_at_xy img (x - 1 + a % 3) (y - 1 + a / 3) : Nat)
      (acc.1 + GRAD_LR_3X3.getD a 0 * p,
       acc.2.1 + GRAD_TB_3X3.getD a 0 * p,
       acc.2.2.1 + GRAD_TBLR_3X3.getD a 0 * p,
       acc.2.2.2 + GRAD_TBRL_3X3.getD a 0 * p))
    ((0 : ℚ), (0 : ℚ), (0 : ℚ), (0 : ℚ))
  max_abs acc.1 acc.2.1 acc.2.2.1 acc.2.2.2

/-- The C cast (u8)grad for the gradient values, which the source asserts
to lie in [0, 255]: truncation toward zero, i.e. the floor for
non-negative values. -/
def truncU8 (grad : ℚ) : Nat :=
  grad.floor.toNat

/-- zero_outer(Image const&): clear the top and bottom rows, then the left
and right column entries of every interior row. -/
def zero_outer (dst : Image) : Image :=
  let data1 := (List.range dst.width).foldl
    (fun m x =>
      (m.write (row_begin dst 0 + x) 0).write
        (row_begin dst (dst.height - 1) + x) 0)
    dst.data
  let data2 := (List.range' 1 (dst.height - 1 - 1)).foldl
    (fun m y =>
      (m.write (row_begin dst y + 0) 0).write
        (row_begin dst y + (dst.width - 1)) 0)
    data1
  { dst with data := data2 }

/-- edges(Image const&, Image const&, u8): zero the outer border, then
binarize every interior pixel against the threshold. -/
def edges (src dst : Image) (threshold : Nat) : Image :=
  let dst0 := zero_outer dst
  let data1 := (List.range' 1 (src.height - 1 - 1)).foldl
    (fun m y =>
      (List.range' 1 (src.width - 1 - 1)).foldl
        (fun m2 x =>
          m2.write (row_begin dst y + x)
            (if truncU8 (gradient_at_xy src x y) > threshold then 255
             else 0))
        m)
    dst0.data
  { dst0 with data := data1 }

/-! ## Theorems -/

/-- Closed form of the iterator walk: for a non-empty range, after k steps
(k at most width*height of the range) the position is
(x_begin + k mod w, y_begin + k div w). -/
theorem GrayIter.iterN_closed_form (r : Range2Du32)
    (hx : r.x_begin < r.x_end) (k : Nat)
    (hk : k ≤ (r.x_end - r.x_begin) * (r.y_end - r.y_begin)) :
    GrayIter.iterN r k =
      { x := r.x_begin + k % (r.x_end - r.x_begin),
        y := r.y_begin + k / (r.x_end - r.x_begin) } := by
  set w := r.x_end - r.x_begin with hw
  have hw0 : 0 < w := Nat.sub_pos_of_lt hx
  induction k with
  | zero =>
    simp [GrayIter.iterN, GrayIter.start, Nat.zero_mod, Nat.zero_div]
  | succ k ih =>
    have hk' : k ≤ w * (r.y_end - r.y_begin) := Nat.le_of_succ_le hk
    have hprev := ih hk'
    have hstep : GrayIter.iterN r (k + 1) =
        GrayIter.next r (GrayIter.iterN r k) := by
      simp [GrayIter.iterN, Function.iterate_succ_apply']
    rw [hstep, hprev]
    have hmod : k % w < w := Nat.mod_lt _ hw0
    by_cases hcase : k % w + 1 = w
    · have hxe : r.x_end ≤ r.x_begin + k % w + 1 := by omega
      have hk1 : k + 1 = w * (k / w + 1) := by
        have h1 := Nat.div_add_mod k w
        rw [Nat.mul_add, Nat.mul_one]
        omega
      have hdiv : (k + 1) / w = k / w + 1 := by
        rw [hk1, Nat.mul_div_cancel_left _ hw0]
      have hmod' : (k + 1) % w = 0 := by
        rw [hk1, Nat.mul_mod_right]
      simp only [GrayIter.next]
      rw [if_pos (by omega)]
      rw [GrayIter.mk.injEq]
      exact ⟨by omega, by omega⟩
    · have hlt : k % w + 1 < w := by omega
      have hk1 : k + 1 = w * (k / w) + (k % w + 1) := by
        have h1 := Nat.div_add_mod k w
        omega
      have hdiv : (k + 1) / w = k / w := by
        rw [hk1, Nat.mul_add_div hw0, Nat.div_eq_of_lt hlt]
        omega
      have hmod' : (k + 1) % w = k % w + 1 := by
        rw [hk1, Nat.mul_add_mod, Nat.mod_eq_of_lt hlt]
      simp only [GrayIter.next]
      rw [if_neg (by omega)]
      rw [GrayIter.mk.injEq]
      exact ⟨by omega, by omega⟩

/-- For a non-empty range the end() sentinel is (x_begin, y_end). -/
theorem GrayIter.stop_eq (r : Range2Du32)
    (_hx : r.x_begin < r.x_end) (hy : r.y_begin < r.y_end) :
    GrayIter.stop r = { x := r.x_begin, y := r.y_end } := by
  simp only [GrayIter.stop, GrayIter.next]
  rw [if_pos (by omega)]
  rw [GrayIter.mk.injEq]
  exact ⟨rfl, by omega⟩

/-- After exactly w*h steps the iterator equals the end() sentinel. -/
theorem GrayIter.iterN_total (r : Range2Du32)
    (hx : r.x_begin < r.x_end) (hy : r.y_begin < r.y_end) :
    GrayIter.iterN r ((r.x_end - r.x_begin) * (r.y_end - r.y_begin)) =
      GrayIter.stop r := by
  have hw0 : 0 < r.x_end - r.x_begin := Nat.sub_pos_of_lt hx
  rw [GrayIter.iterN_closed_form r hx _ (le_refl _), GrayIter.stop_eq r hx hy]
  have hmod : ((r.x_end - r.x_begin) * (r.y_end - r.y_begin)) %
      (r.x_end - r.x_begin) = 0 := Nat.mul_mod_right _ _
  have hdiv : ((r.x_end - r.x_begin) * (r.y_end - r.y_begin)) /
      (r.x_end - r.x_begin) = r.y_end - r.y_begin :=
    Nat.mul_div_cancel_left _ hw0
  rw [GrayIter.mk.injEq]
  exact ⟨by omega, by omega⟩

/-- Strictly before w*h steps the iterator differs from the end() sentinel. -/
theorem GrayIter.iterN_ne_stop (r : Range2Du32)
    (hx : r.x_begin < r.x_end) (hy : r.y_begin < r.y_end) (k : Nat)
    (hk : k < (r.x_end - r.x_begin) * (r.y_end - r.y_begin)) :
    GrayIter.iterN r k ≠ GrayIter.stop r := by
  have hw0 : 0 < r.x_end - r.x_begin := Nat.sub_pos_of_lt hx
  rw [GrayIter.iterN_closed_form r hx k (Nat.le_of_lt hk),
    GrayIter.stop_eq r hx hy]
  have hdiv : k / (r.x_end - r.x_begin) < r.y_end - r.y_begin :=
    Nat.div_lt_of_lt_mul hk
  intro hcontra
  have hy2 := congrArg GrayIter.y hcontra
  simp only at hy2
  omega

/-- Flattening a nested row/column enumeration: the naive nested loop over
h rows of w columns, flattened, lists g (k mod w) (k div w) for k below w*h. -/
theorem range_flatMap_divmod {α : Type} (w : Nat) (hw : 0 < w)
    (g : Nat → Nat → α) (h : Nat) :
    (List.range h).flatMap (fun j => (List.range w).map (fun i => g i j)) =
      (List.range (w * h)).map (fun k => g (k % w) (k / w)) := by
  induction h with
  | zero => simp
  | succ n ih =>
    rw [List.range_succ, List.flatMap_append]
    have hmul : w * (n + 1) = w * n + w := by ring
    rw [hmul, List.range_add, List.map_append, ← ih]
    congr 1
    simp only [List.flatMap_cons, List.flatMap_nil, List.append_nil,
      List.map_map]
    apply List.map_congr_left
    intro i hi
    have hi' : i < w := List.mem_range.mp hi
    have hmod : (w * n + i) % w = i := by
      rw [Nat.mul_add_mod, Nat.mod_eq_of_lt hi']
    have hdiv : (w * n + i) / w = n := by
      rw [Nat.mul_add_div hw, Nat.div_eq_of_lt hi']
      omega
    simp [Function.comp, hmod, hdiv]

/-- C1: for every GrayView over a non-empty range, iterating with
operator++ from begin() until reaching end() visits exactly the positions
of the sub-rectangle, each exactly once, in row-major order — the same
sequence as the naive nested row/column loop — and the iterator first
equals the end() sentinel after exactly width*height steps. -/
theorem grayview_iter_row_major (r : Range2Du32)
    (hx : r.x_begin < r.x_end) (hy : r.y_begin < r.y_end) :
    ((List.range ((r.x_end - r.x_begin) * (r.y_end - r.y_begin))).map
        (GrayIter.iterN r) =
      (List.range (r.y_end - r.y_begin)).flatMap (fun j =>
        (List.range (r.x_end - r.x_begin)).map (fun i =>
          GrayIter.mk (r.x_begin + i) (r.y_begin + j)))) ∧
    GrayIter.iterN r ((r.x_end - r.x_begin) * (r.y_end - r.y_begin)) =
      GrayIter.stop r ∧
    ∀ k < (r.x_end - r.x_begin) * (r.y_end - r.y_begin),
      GrayIter.iterN r k ≠ GrayIter.stop r := by
  have hw0 : 0 < r.x_end - r.x_begin := Nat.sub_pos_of_lt hx
  refine ⟨?_, GrayIter.iterN_total r hx hy,
    fun k hk => GrayIter.iterN_ne_stop r hx hy k hk⟩
  rw [range_flatMap_divmod (r.x_end - r.x_begin) hw0
    (fun i j => GrayIter.mk (r.x_begin + i) (r.y_begin + j))
    (r.y_end - r.y_begin)]
  apply List.map_congr_left
  intro k hk
  have hk' : k < (r.x_end - r.x_begin) * (r.y_end - r.y_begin) :=
    List.mem_range.mp hk
  exact GrayIter.iterN_closed_form r hx k hk'.le

/-- C1 witness: the iterator over the range [1,3) x [2,4) walks the four
positions in row-major order and stops after four steps. -/
theorem grayview_iter_row_major_witness :
    (1 < 3 ∧ 2 < 4) ∧
    (((List.range ((3 - 1) * (4 - 2))).map
        (GrayIter.iterN (Range2Du32.mk 1 3 2 4)) =
      (List.range (4 - 2)).flatMap (fun j =>
        (List.range (3 - 1)).map (fun i =>
          GrayIter.mk (1 + i) (2 + j)))) ∧
    GrayIter.iterN (Range2Du32.mk 1 3 2 4) ((3 - 1) * (4 - 2)) =
      GrayIter.stop (Range2Du32.mk 1 3 2 4) ∧
    ∀ k < (3 - 1) * (4 - 2),
      GrayIter.iterN (Range2Du32.mk 1 3 2 4) k ≠
        GrayIter.stop (Range2Du32.mk 1 3 2 4)) :=
  ⟨⟨by decide, by decide⟩,
    grayview_iter_row_major (Range2Du32.mk 1 3 2 4) (by decide) (by decide)⟩

/-- C3: for a non-empty view range contained in the image
(x_end ≤ image width, y_end ≤ image height), every position reached from
begin() while the walk has not yet met end() dereferences the offset
y * image_width + x, which stays strictly below image_width * height. -/
theorem grayview_deref_in_bounds (r : Range2Du32) (W H : Nat)
    (hx : r.x_begin < r.x_end) (hy : r.y_begin < r.y_end)
    (hW : r.x_end ≤ W) (hH : r.y_end ≤ H) (k : Nat)
    (hrun : ∀ j ≤ k, GrayIter.iterN r j ≠ GrayIter.stop r) :
    GrayIter.xy_off W (GrayIter.iterN r k) < W * H := by
  have hw0 : 0 < r.x_end - r.x_begin := Nat.sub_pos_of_lt hx
  have hklt : k < (r.x_end - r.x_begin) * (r.y_end - r.y_begin) := by
    by_contra hge
    exact hrun _ (Nat.le_of_not_lt hge) (GrayIter.iterN_total r hx hy)
  rw [GrayIter.iterN_closed_form r hx k hklt.le]
  simp only [GrayIter.xy_off]
  have hxlt : r.x_begin + k % (r.x_end - r.x_begin) < r.x_end := by
    have := Nat.mod_lt k hw0
    omega
  have hylt : r.y_begin + k / (r.x_end - r.x_begin) < r.y_end := by
    have := Nat.div_lt_of_lt_mul hklt
    omega
  have h1 : (r.y_begin + k / (r.x_end - r.x_begin)) * W +
      (r.x_begin + k % (r.x_end - r.x_begin)) <
      (r.y_begin + k / (r.x_end - r.x_begin) + 1) * W := by
    have hexp : (r.y_begin + k / (r.x_end - r.x_begin) + 1) * W =
        (r.y_begin + k / (r.x_end - r.x_begin)) * W + W := by ring
    rw [hexp]
    omega
  have h2 : (r.y_begin + k / (r.x_end - r.x_begin) + 1) * W ≤ H * W :=
    Nat.mul_le_mul_right W (by omega)
  rw [Nat.mul_comm W H]
  exact lt_of_lt_of_le h1 h2

/-- C3 witness: at the range [0,2) x [0,2) inside a 2 x 3 image, after one
step (end() not yet reached) the dereferenced offset is within the buffer. -/
theorem grayview_deref_in_bounds_witness :
    (0 < 2 ∧ 0 < 2 ∧ 2 ≤ 2 ∧ 2 ≤ 3 ∧
      ∀ j ≤ 1, GrayIter.iterN (Range2Du32.mk 0 2 0 2) j ≠
        GrayIter.stop (Range2Du32.mk 0 2 0 2)) ∧
    GrayIter.xy_off 2 (GrayIter.iterN (Range2Du32.mk 0 2 0 2) 1) < 2 * 3 :=
  ⟨⟨by decide, by decide, by decide, by decide, by decide⟩,
    grayview_deref_in_bounds (Range2Du32.mk 0 2 0 2) 2 3
      (by decide) (by decide) (by decide) (by decide) 1 (by decide)⟩

/-- C2: on a valid buffer (data non-null, capacity non-zero,
size < capacity) with n ≤ capacity - size, push returns the pointer
data + size and advances size by exactly n — for MemoryBuffer::push and
for push_elements — and a second successful push hands out the adjacent
region starting at data + size + n. -/
theorem push_bump_allocates (b : FloatBuffer) (mb : MemoryBuffer)
    (base mbase : Nat) (n m p : Nat)
    (hdata : b.data = some base) (hcap : b.capacity ≠ 0)
    (hsz : b.size < b.capacity) (hn : n ≤ b.capacity - b.size)
    (hmdata : mb.data_ = some mbase) (hmcap : mb.capacity_ ≠ 0)
    (hmsz : mb.size_ < mb.capacity_) (hp : p ≤ mb.capacity_ - mb.size_) :
    push_elements b n =
      (some (base + b.size), { b with size := b.size + n }) ∧
    (b.size + n < b.capacity → m ≤ b.capacity - (b.size + n) →
      (push_elements (push_elements b n).2 m).1 = some (base + b.size + n)) ∧
    mb.push p =
      (some (mbase + mb.size_), { mb with size_ := mb.size_ + p }) := by
  have hfirst : push_elements b n =
      (some (base + b.size), { b with size := b.size + n }) := by
    simp only [push_elements, hdata]
    rw [if_neg (by simp [hdata, hcap, hsz, hn])]
    simp [hdata]
  refine ⟨hfirst, ?_, ?_⟩
  · intro h1 h2
    rw [hfirst]
    simp only [push_elements]
    rw [if_neg (by simp [hdata, hcap, hsz, h1, h2])]
    simp [hdata, Nat.add_assoc]
  · simp only [MemoryBuffer.push, hmdata]
    rw [if_neg (by simp [hmdata, hmcap, hmsz, hp])]
    simp [hmdata]

/-- C2 witness: a FloatBuffer of capacity 4 at base 100 holding 1 element
and a MemoryBuffer of capacity 5 at base 40 holding 2 elements. -/
theorem push_bump_allocates_witness :
    ((FloatBuffer.mk 4 1 (some 100)).data = some 100 ∧
      (FloatBuffer.mk 4 1 (some 100)).capacity ≠ 0 ∧
      (FloatBuffer.mk 4 1 (some 100)).size <
        (FloatBuffer.mk 4 1 (some 100)).capacity ∧
      (2 : Nat) ≤ 4 - 1 ∧
      (MemoryBuffer.mk (some 40) 5 2).data_ = some 40 ∧
      (MemoryBuffer.mk (some 40) 5 2).capacity_ ≠ 0 ∧
      (MemoryBuffer.mk (some 40) 5 2).size_ <
        (MemoryBuffer.mk (some 40) 5 2).capacity_ ∧
      (3 : Nat) ≤ 5 - 2) ∧
    (push_elements (FloatBuffer.mk 4 1 (some 100)) 2 =
      (some 101, FloatBuffer.mk 4 3 (some 100)) ∧
    (1 + 2 < 4 → 1 ≤ 4 - (1 + 2) →
      (push_elements (push_elements (FloatBuffer.mk 4 1 (some 100)) 2).2 1).1 =
        some (100 + 1 + 2)) ∧
    (MemoryBuffer.mk (some 40) 5 2).push 3 =
      (some 42, MemoryBuffer.mk (some 40) 5 5)) :=
  ⟨⟨by decide, by decide, by decide, by decide, by decide, by decide,
      by decide, by decide⟩,
    push_bump_allocates (FloatBuffer.mk 4 1 (some 100))
      (MemoryBuffer.mk (some 40) 5 2) 100 40 2 1 3
      (by decide) (by decide) (by decide) (by decide)
      (by decide) (by decide) (by decide) (by decide)⟩

/-- C4 (code bug evaluation): host_malloc on an empty buffer with
n_elements = 1 and a FAILED underlying allocation still returns true,
leaving buffer.data null — the failure is not reported through the
returned boolean. -/
theorem host_malloc_true_on_failed_alloc :
    host_malloc none (FloatBuffer.mk 0 0 none) 1 =
      (true, FloatBuffer.mk 0 0 none) := by decide

/-- C5: a push that cannot be satisfied (invalid buffer, or requested
count exceeding capacity_ - size_) returns nullptr with all three fields
unchanged, and neither push (on any request) nor reset ever changes
capacity_. -/
theorem memory_buffer_no_grow (b : MemoryBuffer) (n : Nat)
    (hfail : b.data_ = none ∨ b.capacity_ = 0 ∨ b.capacity_ ≤ b.size_ ∨
      b.capacity_ - b.size_ < n) :
    b.push n = (none, b) ∧
    (∀ m, ((b.push m).2).capacity_ = b.capacity_) ∧
    b.reset.capacity_ = b.capacity_ := by
  refine ⟨?_, ?_, rfl⟩
  · simp only [MemoryBuffer.push]
    rw [if_pos ?_]
    rcases hfail with h | h | h | h
    · simp [h]
    · simp [h]
    · simp [Nat.not_lt.mpr h]
    · simp [Nat.not_le.mpr h]
  · intro m
    simp only [MemoryBuffer.push]
    split
    · rfl
    · rfl

/-- C5 witness: pushing 4 elements onto a buffer with only 3 left fails and
leaves the buffer untouched. -/
theorem memory_buffer_no_grow_witness :
    ((MemoryBuffer.mk (some 40) 5 2).data_ = none ∨
      (MemoryBuffer.mk (some 40) 5 2).capacity_ = 0 ∨
      (MemoryBuffer.mk (some 40) 5 2).capacity_ ≤
        (MemoryBuffer.mk (some 40) 5 2).size_ ∨
      (MemoryBuffer.mk (some 40) 5 2).capacity_ -
        (MemoryBuffer.mk (some 40) 5 2).size_ < 4) ∧
    ((MemoryBuffer.mk (some 40) 5 2).push 4 =
      (none, MemoryBuffer.mk (some 40) 5 2) ∧
    (∀ m, (((MemoryBuffer.mk (some 40) 5 2).push m).2).capacity_ =
      (MemoryBuffer.mk (some 40) 5 2).capacity_) ∧
    (MemoryBuffer.mk (some 40) 5 2).reset.capacity_ =
      (MemoryBuffer.mk (some 40) 5 2).capacity_) :=
  ⟨by decide,
    memory_buffer_no_grow (MemoryBuffer.mk (some 40) 5 2) 4 (by decide)⟩

/-- C8: size_ ≤ capacity_ holds after construction (size_ 0) and is
preserved by push (which only advances size_ after checking that the
request fits), by reset (size_ to 0) and by free (both to 0). -/
theorem memory_buffer_invariant (alloc : Option Nat) (k : Nat)
    (b : MemoryBuffer) (m : Nat) (hb : b.size_ ≤ b.capacity_) :
    (MemoryBuffer.construct alloc k).size_ ≤
      (MemoryBuffer.construct alloc k).capacity_ ∧
    ((b.push m).2).size_ ≤ ((b.push m).2).capacity_ ∧
    b.reset.size_ ≤ b.reset.capacity_ ∧
    b.free.size_ ≤ b.free.capacity_ := by
  refine ⟨Nat.zero_le _, ?_, Nat.zero_le _, Nat.le_refl _⟩
  simp only [MemoryBuffer.push]
  split
  · exact hb
  · rename_i hcond
    simp only [Bool.or_eq_true, Bool.not_eq_true', Bool.and_eq_true,
      decide_eq_true_eq, not_or, Bool.not_eq_false] at hcond
    simp only
    omega

/-- C8 witness: the invariant at a concrete buffer and push request. -/
theorem memory_buffer_invariant_witness :
    (MemoryBuffer.mk (some 40) 5 2).size_ ≤
      (MemoryBuffer.mk (some 40) 5 2).capacity_ ∧
    ((MemoryBuffer.construct (some 7) 6).size_ ≤
      (MemoryBuffer.construct (some 7) 6).capacity_ ∧
    (((MemoryBuffer.mk (some 40) 5 2).push 3).2).size_ ≤
      (((MemoryBuffer.mk (some 40) 5 2).push 3).2).capacity_ ∧
    (MemoryBuffer.mk (some 40) 5 2).reset.size_ ≤
      (MemoryBuffer.mk (some 40) 5 2).reset.capacity_ ∧
    (MemoryBuffer.mk (some 40) 5 2).free.size_ ≤
      (MemoryBuffer.mk (some 40) 5 2).free.capacity_) :=
  ⟨by decide,
    memory_buffer_invariant (some 7) 6 (MemoryBuffer.mk (some 40) 5 2) 3
      (by decide)⟩

/-- C9: for n ≥ 1 (and small enough that the u32 sum n + 1023 does not
wrap), launch_kernel's block count (n + 1023) / 1024 is the least b with
b * 1024 ≥ n, so the grid of b blocks of 1024 threads covers every array
index. -/
theorem launch_kernel_grid_covers (n : Nat) (h1 : 1 ≤ n)
    (_hof : n + 1023 < 2 ^ 32) :
    launch_n_blocks n = (n + 1023) / 1024 ∧
    n ≤ launch_n_blocks n * 1024 ∧
    (∀ b, n ≤ b * 1024 → launch_n_blocks n ≤ b) ∧
    (∀ i < n, i < launch_n_blocks n * 1024) := by
  unfold launch_n_blocks THREADS_PER_BLOCK
  refine ⟨rfl, by omega, fun b hb => by omega, fun i hi => by omega⟩

/-- C9 witness: 3000 elements need exactly 3 blocks of 1024 threads. -/
theorem launch_kernel_grid_covers_witness :
    (1 ≤ 3000 ∧ 3000 + 1023 < 2 ^ 32) ∧
    (launch_n_blocks 3000 = (3000 + 1023) / 1024 ∧
    3000 ≤ launch_n_blocks 3000 * 1024 ∧
    (∀ b, 3000 ≤ b * 1024 → launch_n_blocks 3000 ≤ b) ∧
    (∀ i < 3000, i < launch_n_blocks 3000 * 1024)) :=
  ⟨⟨by decide, by decide⟩,
    launch_kernel_grid_covers 3000 (by decide) (by decide)⟩

/-- C7: each server-side wrapper returns exactly the success boolean of
the one OS call it wraps and stores that same boolean in the matching
ServerSocketInfo flag (open for os_server_open, bind for os_server_bind,
listen for os_server_listen, client_connected for os_server_accept), and
os_server_close sets the open, bind and listen flags all to false. -/
theorem server_wrappers_report_os_result (ret : Int)
    (info : ServerSocketInfo) (port : Int) :
    ((os_server_open ret info port).1 = (os_socket_create ret).1 ∧
      (os_server_open ret info port).2.open_ = (os_socket_create ret).1) ∧
    ((os_server_bind ret info).1 = decide (ret ≠ SOCKET_ERROR) ∧
      (os_server_bind ret info).2.bind = decide (ret ≠ SOCKET_ERROR)) ∧
    ((os_server_listen ret info).1 = decide (ret ≠ SOCKET_ERROR) ∧
      (os_server_listen ret info).2.listen = decide (ret ≠ SOCKET_ERROR)) ∧
    ((os_server_accept ret info).1 = decide (ret ≠ INVALID_SOCKET) ∧
      (os_server_accept ret info).2.client_connected =
        decide (ret ≠ INVALID_SOCKET)) ∧
    ((os_server_close info).open_ = false ∧
      (os_server_close info).bind = false ∧
      (os_server_close info).listen = false) := by
  refine ⟨⟨?_, ?_⟩, ⟨rfl, rfl⟩, ⟨rfl, rfl⟩, ⟨rfl, rfl⟩, rfl, rfl, rfl⟩
  · simp only [os_server_open, os_socket_create]
    split <;> rfl
  · simp only [os_server_open, os_socket_create]
    split <;> rfl

/-- Every position on the walk strictly before the end sentinel lies in
the view's sub-rectangle. -/
theorem GrayIter.iterN_mem_rect (r : Range2Du32)
    (hx : r.x_begin < r.x_end) (k : Nat)
    (hk : k < (r.x_end - r.x_begin) * (r.y_end - r.y_begin)) :
    r.x_begin ≤ (GrayIter.iterN r k).x ∧
    (GrayIter.iterN r k).x < r.x_end ∧
    r.y_begin ≤ (GrayIter.iterN r k).y ∧
    (GrayIter.iterN r k).y < r.y_end := by
  have hw0 : 0 < r.x_end - r.x_begin := Nat.sub_pos_of_lt hx
  have hform := GrayIter.iterN_closed_form r hx k hk.le
  have hxv : (GrayIter.iterN r k).x =
      r.x_begin + k % (r.x_end - r.x_begin) := by rw [hform]
  have hyv : (GrayIter.iterN r k).y =
      r.y_begin + k / (r.x_end - r.x_begin) := by rw [hform]
  have hmod : k % (r.x_end - r.x_begin) < r.x_end - r.x_begin :=
    Nat.mod_lt _ hw0
  have hdiv : k / (r.x_end - r.x_begin) < r.y_end - r.y_begin :=
    Nat.div_lt_of_lt_mul hk
  have hh0 : 0 < r.y_end - r.y_begin := by
    rcases Nat.eq_zero_or_pos (r.y_end - r.y_begin) with h0 | h0
    · rw [h0, Nat.mul_zero] at hk
      omega
    · exact h0
  refine ⟨?_, ?_, ?_, ?_⟩
  · rw [hxv]
    exact Nat.le_add_right _ _
  · rw [hxv]
    omega
  · rw [hyv]
    exact Nat.le_add_right _ _
  · rw [hyv]
    omega

/-- The walk visits pairwise distinct positions before the end sentinel. -/
theorem GrayIter.iterN_inj (r : Range2Du32)
    (hx : r.x_begin < r.x_end) (k1 k2 : Nat)
    (h1 : k1 < (r.x_end - r.x_begin) * (r.y_end - r.y_begin))
    (h2 : k2 < (r.x_end - r.x_begin) * (r.y_end - r.y_begin))
    (heq : GrayIter.iterN r k1 = GrayIter.iterN r k2) : k1 = k2 := by
  rw [GrayIter.iterN_closed_form r hx k1 h1.le,
    GrayIter.iterN_closed_form r hx k2 h2.le, GrayIter.mk.injEq] at heq
  obtain ⟨hxeq, hyeq⟩ := heq
  have hq : k1 / (r.x_end - r.x_begin) = k2 / (r.x_end - r.x_begin) := by
    omega
  have hr : k1 % (r.x_end - r.x_begin) = k2 % (r.x_end - r.x_begin) := by
    omega
  have e1 := Nat.div_add_mod k1 (r.x_end - r.x_begin)
  have e2 := Nat.div_add_mod k2 (r.x_end - r.x_begin)
  rw [hq, hr] at e1
  omega

/-- The position visited at step (y - y_begin) * w + (x - x_begin) is
exactly (x, y), for (x, y) in the sub-rectangle. -/
theorem GrayIter.iterN_at_coords (r : Range2Du32)
    (hx : r.x_begin < r.x_end) (x y : Nat)
    (hx1 : r.x_begin ≤ x) (hx2 : x < r.x_end)
    (hy1 : r.y_begin ≤ y) (hy2 : y < r.y_end) :
    (y - r.y_begin) * (r.x_end - r.x_begin) + (x - r.x_begin) <
      (r.x_end - r.x_begin) * (r.y_end - r.y_begin) ∧
    GrayIter.iterN r
        ((y - r.y_begin) * (r.x_end - r.x_begin) + (x - r.x_begin)) =
      GrayIter.mk x y := by
  have hw0 : 0 < r.x_end - r.x_begin := Nat.sub_pos_of_lt hx
  have hb : x - r.x_begin < r.x_end - r.x_begin := by omega
  have hk : (y - r.y_begin) * (r.x_end - r.x_begin) + (x - r.x_begin) <
      (r.x_end - r.x_begin) * (r.y_end - r.y_begin) := by
    have hlt : (y - r.y_begin) * (r.x_end - r.x_begin) + (x - r.x_begin) <
        (y - r.y_begin + 1) * (r.x_end - r.x_begin) := by
      have hexp : (y - r.y_begin + 1) * (r.x_end - r.x_begin) =
          (y - r.y_begin) * (r.x_end - r.x_begin) +
            (r.x_end - r.x_begin) := by ring
      rw [hexp]
      omega
    have hle : (y - r.y_begin + 1) * (r.x_end - r.x_begin) ≤
        (r.y_end - r.y_begin) * (r.x_end - r.x_begin) :=
      Nat.mul_le_mul_right _ (by omega)
    have hcomm : (r.y_end - r.y_begin) * (r.x_end - r.x_begin) =
        (r.x_end - r.x_begin) * (r.y_end - r.y_begin) := Nat.mul_comm _ _
    omega
  refine ⟨hk, ?_⟩
  rw [GrayIter.iterN_closed_form r hx _ hk.le]
  have hform : (y - r.y_begin) * (r.x_end - r.x_begin) + (x - r.x_begin) =
      (r.x_end - r.x_begin) * (y - r.y_begin) + (x - r.x_begin) := by ring
  have hdiv : ((y - r.y_begin) * (r.x_end - r.x_begin) + (x - r.x_begin)) /
      (r.x_end - r.x_begin) = y - r.y_begin := by
    rw [hform, Nat.mul_add_div hw0, Nat.div_eq_of_lt hb]
    omega
  have hmod : ((y - r.y_begin) * (r.x_end - r.x_begin) + (x - r.x_begin)) %
      (r.x_end - r.x_begin) = x - r.x_begin := by
    rw [hform, Nat.mul_add_mod, Nat.mod_eq_of_lt hb]
  rw [GrayIter.mk.injEq, hdiv, hmod]
  exact ⟨by omega, by omega⟩

/-- The fueled for_each loop from the j-th iterate, with n steps left to
the end sentinel and at least n fuel, folds the invert step over the
remaining trajectory. -/
theorem forEachInvert_eq_foldl (r : Range2Du32) (W : Nat)
    (hx : r.x_begin < r.x_end) (hy : r.y_begin < r.y_end) :
    ∀ (n j : Nat),
      j + n = (r.x_end - r.x_begin) * (r.y_end - r.y_begin) →
      ∀ (fuel : Nat), n ≤ fuel → ∀ (m : Mem),
      forEachInvert r W fuel (GrayIter.iterN r j) m =
        ((List.range' j n).map (GrayIter.iterN r)).foldl
          (fun acc it => invertStep W it acc) m := by
  intro n
  induction n with
  | zero =>
    intro j hj fuel _hfuel m
    have hstop : GrayIter.iterN r j = GrayIter.stop r := by
      have hjeq : j = (r.x_end - r.x_begin) * (r.y_end - r.y_begin) := by
        omega
      rw [hjeq]
      exact GrayIter.iterN_total r hx hy
    cases fuel with
    | zero => simp [forEachInvert, List.range']
    | succ f => simp [forEachInvert, hstop, List.range']
  | succ n ih =>
    intro j hj fuel hfuel m
    obtain ⟨f, rfl⟩ : ∃ f, fuel = f + 1 := ⟨fuel - 1, by omega⟩
    have hne : GrayIter.iterN r j ≠ GrayIter.stop r :=
      GrayIter.iterN_ne_stop r hx hy j (by omega)
    have hnext : GrayIter.next r (GrayIter.iterN r j) =
        GrayIter.iterN r (j + 1) := by
      simp [GrayIter.iterN, Function.iterate_succ_apply']
    simp only [forEachInvert, if_neg hne, hnext]
    rw [List.range'_succ, List.map_cons, List.foldl_cons]
    exact ih (j + 1) (by omega) f (by omega)
      (invertStep W (GrayIter.iterN r j) m)

/-- A fold of invert steps leaves every offset it never writes unchanged. -/
theorem foldl_invert_untouched (W : Nat) (l : List GrayIter) (m : Mem)
    (o : Nat) (h : ∀ it ∈ l, GrayIter.xy_off W it ≠ o) :
    (l.foldl (fun acc it => invertStep W it acc) m) o = m o := by
  induction l generalizing m with
  | nil => rfl
  | cons a t ih =>
    simp only [List.foldl_cons]
    rw [ih _ (fun it hit => h it (List.mem_cons_of_mem a hit))]
    have ha : GrayIter.xy_off W a ≠ o := h a (List.mem_cons_self a t)
    simp only [invertStep, Mem.write]
    rw [if_neg (fun hc => ha hc.symm)]

/-- A fold of invert steps writes an offset with a unique writer exactly
once, replacing its value with 255 minus the original. -/
theorem foldl_invert_written (W : Nat) (l : List GrayIter) (m : Mem)
    (o : Nat) (j : GrayIter) (hj : j ∈ l) (ho : GrayIter.xy_off W j = o)
    (huniq : ∀ it ∈ l, GrayIter.xy_off W it = o → it = j)
    (hnd : l.Nodup) :
    (l.foldl (fun acc it => invertStep W it acc) m) o = 255 - m o := by
  induction l generalizing m with
  | nil => exact absurd hj (List.not_mem_nil j)
  | cons a t ih =>
    have hnd' := List.nodup_cons.mp hnd
    rcases List.mem_cons.mp hj with rfl | hjt
    · simp only [List.foldl_cons]
      have hnota : ∀ it ∈ t, GrayIter.xy_off W it ≠ o := by
        intro it hit hcon
        have heq : it = j := huniq it (List.mem_cons_of_mem j hit) hcon
        exact hnd'.1 (heq ▸ hit)
      rw [foldl_invert_untouched W t _ o hnota]
      simp [invertStep, Mem.write, ho]
    · have ha : GrayIter.xy_off W a ≠ o := by
        intro hcon
        have haj : a = j := huniq a (List.mem_cons_self a t) hcon
        exact hnd'.1 (haj ▸ hjt)
      simp only [List.foldl_cons]
      have hm : invertStep W a m o = m o := by
        simp only [invertStep, Mem.write]
        rw [if_neg (fun hc => ha hc.symm)]
      rw [ih (invertStep W a m) hjt
        (fun it hit hcon => huniq it (List.mem_cons_of_mem a hit) hcon)
        hnd'.2, hm]

/-- Row-major offsets are injective on coordinates whose x stays below the
row width. -/
theorem row_off_inj (W x1 y1 x2 y2 : Nat) (h1 : x1 < W) (h2 : x2 < W)
    (heq : y1 * W + x1 = y2 * W + x2) : y1 = y2 ∧ x1 = x2 := by
  have hW : 0 < W := by omega
  have hd : ∀ y x : Nat, x < W → (y * W + x) / W = y := by
    intro y x hxW
    rw [Nat.mul_comm y W, Nat.mul_add_div hW, Nat.div_eq_of_lt hxW]
    omega
  have hy12 : y1 = y2 := by
    have e1 := hd y1 x1 h1
    have e2 := hd y2 x2 h2
    rw [heq] at e1
    omega
  subst hy12
  exact ⟨rfl, by omega⟩

/-- C6: invert_gray on a view whose non-empty range fits the image width
replaces every pixel inside the rectangle with 255 minus its old value and
leaves every offset with no representation inside the rectangle — in
particular every pixel of the image outside it — unchanged.  The image's
width, height and data pointer are not part of the mutable buffer and are
untouched by construction. -/
theorem invert_gray_inverts_rect (r : Range2Du32) (W : Nat) (m : Mem)
    (hx : r.x_begin < r.x_end) (hy : r.y_begin < r.y_end)
    (hW : r.x_end ≤ W) :
    (∀ x y, r.x_begin ≤ x → x < r.x_end → r.y_begin ≤ y → y < r.y_end →
      invert_gray r W m (y * W + x) = 255 - m (y * W + x)) ∧
    (∀ o : Nat,
      (∀ x y, r.x_begin ≤ x → x < r.x_end → r.y_begin ≤ y → y < r.y_end →
        o ≠ y * W + x) →
      invert_gray r W m o = m o) := by
  have hw0 : 0 < r.x_end - r.x_begin := Nat.sub_pos_of_lt hx
  have hfuel : (r.x_end - r.x_begin) * (r.y_end - r.y_begin) ≤
      (r.x_end + 1) * (r.y_end + 1) :=
    Nat.mul_le_mul (by omega) (by omega)
  have hrun : invert_gray r W m =
      ((List.range' 0 ((r.x_end - r.x_begin) * (r.y_end - r.y_begin))).map
        (GrayIter.iterN r)).foldl (fun acc it => invertStep W it acc) m := by
    have h0 : GrayIter.iterN r 0 = GrayIter.start r := rfl
    have hfold := forEachInvert_eq_foldl r W hx hy
      ((r.x_end - r.x_begin) * (r.y_end - r.y_begin)) 0 (by omega)
      ((r.x_end + 1) * (r.y_end + 1)) hfuel m
    rw [h0] at hfold
    exact hfold
  have hmem_k : ∀ k ∈ List.range' 0
      ((r.x_end - r.x_begin) * (r.y_end - r.y_begin)),
      k < (r.x_end - r.x_begin) * (r.y_end - r.y_begin) := by
    intro k hk
    obtain ⟨i, hi, hki⟩ := List.mem_range'.mp hk
    omega
  have hnd : (((List.range' 0
      ((r.x_end - r.x_begin) * (r.y_end - r.y_begin))).map
      (GrayIter.iterN r))).Nodup := by
    refine List.Nodup.map_on ?_ (List.nodup_range' _ _)
    intro k1 hk1 k2 hk2 heq
    exact GrayIter.iterN_inj r hx k1 k2 (hmem_k k1 hk1) (hmem_k k2 hk2) heq
  constructor
  · intro x y hx1 hx2 hy1 hy2
    rw [hrun]
    have hxW : x < W := by omega
    obtain ⟨hk, hvisit⟩ := GrayIter.iterN_at_coords r hx x y hx1 hx2 hy1 hy2
    have hjmem : GrayIter.mk x y ∈
        (List.range' 0 ((r.x_end - r.x_begin) * (r.y_end - r.y_begin))).map
          (GrayIter.iterN r) := by
      rw [← hvisit]
      exact List.mem_map_of_mem _ (List.mem_range'.mpr ⟨_, hk, by omega⟩)
    refine foldl_invert_written W _ m (y * W + x) (GrayIter.mk x y) hjmem
      rfl ?_ hnd
    intro it hit hoff
    obtain ⟨k, hk', rfl⟩ := List.mem_map.mp hit
    obtain ⟨hc1, hc2, hc3, hc4⟩ :=
      GrayIter.iterN_mem_rect r hx k (hmem_k k hk')
    have hitxW : (GrayIter.iterN r k).x < W := by omega
    have hoff' : (GrayIter.iterN r k).y * W + (GrayIter.iterN r k).x =
        y * W + x := hoff
    obtain ⟨hyy, hxx⟩ := row_off_inj W (GrayIter.iterN r k).x
      (GrayIter.iterN r k).y x y hitxW hxW hoff'
    cases hform : GrayIter.iterN r k with
    | mk a b =>
      rw [hform] at hyy hxx
      simp only at hyy hxx
      rw [GrayIter.mk.injEq]
      exact ⟨hxx, hyy⟩
  · intro o hno
    rw [hrun]
    refine foldl_invert_untouched W _ m o ?_
    intro it hit hoff
    obtain ⟨k, hk', rfl⟩ := List.mem_map.mp hit
    obtain ⟨hc1, hc2, hc3, hc4⟩ :=
      GrayIter.iterN_mem_rect r hx k (hmem_k k hk')
    exact hno (GrayIter.iterN r k).x (GrayIter.iterN r k).y
      hc1 hc2 hc3 hc4 hoff.symm

/-- C6 witness: inverting the view [1,3) x [0,1) of a 3-wide image whose
buffer holds 10 everywhere inverts the pixels inside the rectangle and
leaves offsets outside it unchanged. -/
theorem invert_gray_inverts_rect_witness :
    (1 < 3 ∧ 0 < 1 ∧ 3 ≤ 3) ∧
    ((∀ x y, 1 ≤ x → x < 3 → 0 ≤ y → y < 1 →
      invert_gray (Range2Du32.mk 1 3 0 1) 3 (fun _ => 10) (y * 3 + x) =
        255 - (fun _ : Nat => 10) (y * 3 + x)) ∧
    (∀ o : Nat, (∀ x y, 1 ≤ x → x < 3 → 0 ≤ y → y < 1 → o ≠ y * 3 + x) →
      invert_gray (Range2Du32.mk 1 3 0 1) 3 (fun _ => 10) o =
        (fun _ : Nat => 10) o)) :=
  ⟨⟨by decide, by decide, by decide⟩,
    invert_gray_inverts_rect (Range2Du32.mk 1 3 0 1) 3 (fun _ => 10)
      (by decide) (by decide) (by decide)⟩

/-- Reading a written cell. -/
theorem Mem.write_self (m : Mem) (o v : Nat) : (m.write o v) o = v := by
  simp [Mem.write]

/-- Reading another cell. -/
theorem Mem.write_other (m : Mem) (o v o' : Nat) (h : o' ≠ o) :
    (m.write o v) o' = m o' := by
  simp [Mem.write, h]

/-- A fold writing a constant at two offsets per step leaves untouched
offsets unchanged. -/
theorem foldl_write2_untouched (l : List Nat) (f g : Nat → Nat) (v : Nat)
    (m : Mem) (o : Nat) (h : ∀ i ∈ l, f i ≠ o ∧ g i ≠ o) :
    (l.foldl (fun acc i => (acc.write (f i) v).write (g i) v) m) o = m o := by
  induction l generalizing m with
  | nil => rfl
  | cons a t ih =>
    simp only [List.foldl_cons]
    rw [ih _ (fun i hi => h i (List.mem_cons_of_mem a hi))]
    obtain ⟨hf, hg⟩ := h a (List.mem_cons_self a t)
    rw [Mem.write_other _ _ _ _ (fun hc => hg hc.symm),
      Mem.write_other _ _ _ _ (fun hc => hf hc.symm)]

/-- A fold writing a constant at two offsets per step sets every offset it
touches to that constant. -/
theorem foldl_write2_hit (l : List Nat) (f g : Nat → Nat) (v : Nat)
    (m : Mem) (o : Nat) (h : ∃ i ∈ l, f i = o ∨ g i = o) :
    (l.foldl (fun acc i => (acc.write (f i) v).write (g i) v) m) o = v := by
  induction l generalizing m with
  | nil =>
    obtain ⟨i, hi, _⟩ := h
    exact absurd hi (List.not_mem_nil i)
  | cons a t ih =>
    simp only [List.foldl_cons]
    by_cases ht : ∃ i ∈ t, f i = o ∨ g i = o
    · exact ih _ ht
    · have hnott : ∀ i ∈ t, f i ≠ o ∧ g i ≠ o := by
        intro i hi
        constructor <;> intro hc <;> exact ht ⟨i, hi, by tauto⟩
      rw [foldl_write2_untouched t f g v _ o hnott]
      obtain ⟨i, hi, hio⟩ := h
      rcases List.mem_cons.mp hi with rfl | hit
      · rcases hio with hf | hg
        · by_cases hgo : g i = o
          · rw [← hgo, Mem.write_self]
          · rw [Mem.write_other _ _ _ _ (fun hc => hgo hc.symm), ← hf,
              Mem.write_self]
        · rw [← hg, Mem.write_self]
      · exact absurd ⟨i, hit, hio⟩ ht

/-- A fold writing values at one offset per step leaves untouched offsets
unchanged. -/
theorem foldl_write_fun_untouched (l : List Nat) (f : Nat → Nat)
    (val : Nat → Nat) (m : Mem) (o : Nat) (h : ∀ i ∈ l, f i ≠ o) :
    (l.foldl (fun acc i => acc.write (f i) (val i)) m) o = m o := by
  induction l generalizing m with
  | nil => rfl
  | cons a t ih =>
    simp only [List.foldl_cons]
    rw [ih _ (fun i hi => h i (List.mem_cons_of_mem a hi)),
      Mem.write_other _ _ _ _ (fun hc => h a (List.mem_cons_self a t) hc.symm)]

/-- A fold writing values at one offset per step, with a unique writer for
the offset, stores that writer's value. -/
theorem foldl_write_fun_hit (l : List Nat) (f : Nat → Nat)
    (val : Nat → Nat) (m : Mem) (o : Nat) (j : Nat) (hj : j ∈ l)
    (hf : f j = o) (huniq : ∀ i ∈ l, f i = o → i = j) (hnd : l.Nodup) :
    (l.foldl (fun acc i => acc.write (f i) (val i)) m) o = val j := by
  induction l generalizing m with
  | nil => exact absurd hj (List.not_mem_nil j)
  | cons a t ih =>
    have hnd' := List.nodup_cons.mp hnd
    simp only [List.foldl_cons]
    rcases List.mem_cons.mp hj with rfl | hjt
    · have hnott : ∀ i ∈ t, f i ≠ o := by
        intro i hi hc
        have hij : i = j := huniq i (List.mem_cons_of_mem j hi) hc
        exact hnd'.1 (hij ▸ hi)
      rw [foldl_write_fun_untouched t f val _ o hnott, ← hf, Mem.write_self]
    · have ha : f a ≠ o := by
        intro hc
        have haj : a = j := huniq a (List.mem_cons_self a t) hc
        exact hnd'.1 (haj ▸ hjt)
      rw [ih _ hjt (fun i hi hc => huniq i (List.mem_cons_of_mem a hi) hc)
        hnd'.2]

/-- A nested row/column fold of writes leaves untouched offsets
unchanged. -/
theorem foldl_grid_untouched (off : Nat → Nat → Nat)
    (val : Nat → Nat → Nat) (lx ly : List Nat) (m : Mem) (o : Nat)
    (h : ∀ y ∈ ly, ∀ x ∈ lx, off y x ≠ o) :
    (ly.foldl (fun acc y =>
      lx.foldl (fun acc2 x => acc2.write (off y x) (val x y)) acc) m) o =
      m o := by
  induction ly generalizing m with
  | nil => rfl
  | cons a t ih =>
    simp only [List.foldl_cons]
    rw [ih _ (fun y hy => h y (List.mem_cons_of_mem a hy))]
    exact foldl_write_fun_untouched lx (fun x => off a x) (fun x => val x a)
      m o (fun x hx => h a (List.mem_cons_self a t) x hx)

/-- A nested row/column fold of writes, with a unique writing step for the
offset, stores that step's value. -/
theorem foldl_grid_hit (off : Nat → Nat → Nat) (val : Nat → Nat → Nat)
    (lx ly : List Nat) (m : Mem) (o : Nat) (x0 y0 : Nat)
    (hy0 : y0 ∈ ly) (hx0 : x0 ∈ lx) (ho : off y0 x0 = o)
    (huniq : ∀ y ∈ ly, ∀ x ∈ lx, off y x = o → y = y0 ∧ x = x0)
    (hndy : ly.Nodup) (hndx : lx.Nodup) :
    (ly.foldl (fun acc y =>
      lx.foldl (fun acc2 x => acc2.write (off y x) (val x y)) acc) m) o =
      val x0 y0 := by
  induction ly generalizing m with
  | nil => exact absurd hy0 (List.not_mem_nil y0)
  | cons a t ih =>
    have hnd' := List.nodup_cons.mp hndy
    simp only [List.foldl_cons]
    rcases List.mem_cons.mp hy0 with rfl | hyt
    · have hrest : ∀ y ∈ t, ∀ x ∈ lx, off y x ≠ o := by
        intro y hy x hx hc
        have hyy0 := (huniq y (List.mem_cons_of_mem y0 hy) x hx hc).1
        exact hnd'.1 (hyy0 ▸ hy)
      rw [foldl_grid_untouched off val lx t _ o hrest]
      exact foldl_write_fun_hit lx (fun x => off y0 x) (fun x => val x y0)
        m o x0 hx0 ho
        (fun x hx hc => (huniq y0 (List.mem_cons_self y0 t) x hx hc).2) hndx
    · exact ih _ hyt
        (fun y hy x hx hc => huniq y (List.mem_cons_of_mem a hy) x hx hc)
        hnd'.2

/-- zero_outer writes 0 to every border pixel of the image. -/
theorem zero_outer_border (dst : Image) (x y : Nat)
    (hx : x < dst.width) (hyH : y < dst.height)
    (h2w : 2 ≤ dst.width) (h2h : 2 ≤ dst.height)
    (hb : x = 0 ∨ x = dst.width - 1 ∨ y = 0 ∨ y = dst.height - 1) :
    (zero_outer dst).data (y * dst.width + x) = 0 := by
  have hW0 : 0 < dst.width := by omega
  simp only [zero_outer, row_begin]
  by_cases hrow : y = 0 ∨ y = dst.height - 1
  · -- top or bottom row: the second loop never touches it, the first sets it
    rw [foldl_write2_untouched _ _ _ _ _ _ ?_]
    · refine foldl_write2_hit _ _ _ _ _ _ ⟨x, List.mem_range.mpr hx, ?_⟩
      rcases hrow with rfl | hH
      · exact Or.inl rfl
      · exact Or.inr (by rw [hH])
    · intro i hi
      obtain ⟨k, hk, hik⟩ := List.mem_range'.mp hi
      constructor <;> intro hc
      · have := (row_off_inj dst.width 0 i x y hW0 hx hc).1
        omega
      · have := (row_off_inj dst.width (dst.width - 1) i x y
          (by omega) hx hc).1
        omega
  · -- interior row: the first loop never touches it, the second sets
    -- the two side pixels
    have hxside : x = 0 ∨ x = dst.width - 1 := by tauto
    refine foldl_write2_hit _ _ _ _ _ _ ⟨y, List.mem_range'.mpr ⟨y - 1, by omega, by omega⟩, ?_⟩
    rcases hxside with rfl | hxW
    · exact Or.inl rfl
    · exact Or.inr (by rw [hxW])

/-- zero_outer leaves every interior pixel unchanged. -/
theorem zero_outer_interior (dst : Image) (x y : Nat)
    (hx1 : 0 < x) (hx2 : x < dst.width - 1)
    (hy1 : 0 < y) (hy2 : y < dst.height - 1) :
    (zero_outer dst).data (y * dst.width + x) =
      dst.data (y * dst.width + x) := by
  have hW0 : 0 < dst.width := by omega
  have hxW : x < dst.width := by omega
  simp only [zero_outer, row_begin]
  rw [foldl_write2_untouched _ _ _ _ _ _ ?_,
    foldl_write2_untouched _ _ _ _ _ _ ?_]
  · intro i hi
    have hiW : i < dst.width := List.mem_range.mp hi
    constructor <;> intro hc
    · have := (row_off_inj dst.width i 0 x y hiW hxW hc).1
      omega
    · have := (row_off_inj dst.width i (dst.height - 1) x y hiW hxW hc).1
      omega
  · intro i hi
    obtain ⟨k, hk, hik⟩ := List.mem_range'.mp hi
    constructor <;> intro hc
    · have := (row_off_inj dst.width 0 i x y hW0 hxW hc).2
      omega
    · have := (row_off_inj dst.width (dst.width - 1) i x y
        (by omega) hxW hc).2
      omega

/-- C10: after edges(src, dst, threshold) on same-sized images of width
and height at least 2, every pixel of dst is 0 or 255: the one-pixel outer
border is 0, and each interior pixel is 255 exactly when its gradient
magnitude truncated to u8 strictly exceeds the threshold. -/
theorem edges_binarizes (src dst : Image) (t : Nat)
    (hw : src.width = dst.width) (hh : src.height = dst.height)
    (h2w : 2 ≤ src.width) (h2h : 2 ≤ src.height) :
    (∀ x y, x < dst.width → y < dst.height →
      ((x = 0 ∨ x = dst.width - 1 ∨ y = 0 ∨ y = dst.height - 1) →
        (edges src dst t).data (y * dst.width + x) = 0) ∧
      (0 < x → x < dst.width - 1 → 0 < y → y < dst.height - 1 →
        (edges src dst t).data (y * dst.width + x) =
          if truncU8 (gradient_at_xy src x y) > t then 255 else 0)) ∧
    (∀ x y, x < dst.width → y < dst.height →
      (edges src dst t).data (y * dst.width + x) = 0 ∨
      (edges src dst t).data (y * dst.width + x) = 255) := by
  have h2w' : 2 ≤ dst.width := hw ▸ h2w
  have h2h' : 2 ≤ dst.height := hh ▸ h2h
  have hdst : (edges src dst t).data =
      (List.range' 1 (dst.height - 1 - 1)).foldl
        (fun m y => (List.range' 1 (dst.width - 1 - 1)).foldl
          (fun m2 x => m2.write (y * dst.width + x)
            (if truncU8 (gradient_at_xy src x y) > t then 255 else 0)) m)
        (zero_outer dst).data := by
    simp only [edges, row_begin]
    rw [hw, hh]
  have hA : ∀ x y, x < dst.width → y < dst.height →
      (x = 0 ∨ x = dst.width - 1 ∨ y = 0 ∨ y = dst.height - 1) →
      (edges src dst t).data (y * dst.width + x) = 0 := by
    intro x y hx hy hb
    rw [hdst]
    rw [foldl_grid_untouched _ _ _ _ _ _ ?_]
    · exact zero_outer_border dst x y hx hy h2w' h2h' hb
    · intro y' hy' x' hx' hc
      obtain ⟨i, hi, hyi⟩ := List.mem_range'.mp hy'
      obtain ⟨k, hk, hxk⟩ := List.mem_range'.mp hx'
      have hxlt : x' < dst.width := by omega
      obtain ⟨hyy, hxx⟩ := row_off_inj dst.width x' y' x y hxlt hx hc
      omega
  have hB : ∀ x y, x < dst.width → y < dst.height →
      0 < x → x < dst.width - 1 → 0 < y → y < dst.height - 1 →
      (edges src dst t).data (y * dst.width + x) =
        if truncU8 (gradient_at_xy src x y) > t then 255 else 0 := by
    intro x y hx hy hx1 hx2 hy1 hy2
    rw [hdst]
    refine foldl_grid_hit _ _ _ _ _ _ x y
      (List.mem_range'.mpr ⟨y - 1, by omega, by omega⟩)
      (List.mem_range'.mpr ⟨x - 1, by omega, by omega⟩)
      rfl ?_ (List.nodup_range' _ _) (List.nodup_range' _ _)
    intro y' hy' x' hx' hc
    obtain ⟨i, hi, hyi⟩ := List.mem_range'.mp hy'
    obtain ⟨k, hk, hxk⟩ := List.mem_range'.mp hx'
    have hxlt : x' < dst.width := by omega
    obtain ⟨hyy, hxx⟩ := row_off_inj dst.width x' y' x y hxlt hx hc
    exact ⟨hyy, hxx⟩
  refine ⟨fun x y hx hy => ⟨hA x y hx hy, hB x y hx hy⟩, ?_⟩
  intro x y hx hy
  by_cases hb : x = 0 ∨ x = dst.width - 1 ∨ y = 0 ∨ y = dst.height - 1
  · exact Or.inl (hA x y hx hy hb)
  · have hint : 0 < x ∧ x < dst.width - 1 ∧ 0 < y ∧ y < dst.height - 1 := by
      omega
    rw [hB x y hx hy hint.1 hint.2.1 hint.2.2.1 hint.2.2.2]
    by_cases hcond : truncU8 (gradient_at_xy src x y) > t
    · exact Or.inr (if_pos hcond)
    · exact Or.inl (if_neg hcond)

/-- C10 witness: a 2 x 2 pair of images — every pixel is on the border,
so the whole destination is zeroed and binary. -/
theorem edges_binarizes_witness :
    ((Image.mk 2 2 (fun _ => 7)).width = (Image.mk 2 2 (fun _ => 9)).width ∧
      (Image.mk 2 2 (fun _ => 7)).height =
        (Image.mk 2 2 (fun _ => 9)).height ∧
      2 ≤ (Image.mk 2 2 (fun _ => 7)).width ∧
      2 ≤ (Image.mk 2 2 (fun _ => 7)).height) ∧
    ((∀ x y, x < (Image.mk 2 2 (fun _ => 9)).width →
      y < (Image.mk 2 2 (fun _ => 9)).height →
      ((x = 0 ∨ x = (Image.mk 2 2 (fun _ => 9)).width - 1 ∨ y = 0 ∨
          y = (Image.mk 2 2 (fun _ => 9)).height - 1) →
        (edges (Image.mk 2 2 (fun _ => 7)) (Image.mk 2 2 (fun _ => 9))
          5).data (y * (Image.mk 2 2 (fun _ => 9)).width + x) = 0) ∧
      (0 < x → x < (Image.mk 2 2 (fun _ => 9)).width - 1 → 0 < y →
          y < (Image.mk 2 2 (fun _ => 9)).height - 1 →
        (edges (Image.mk 2 2 (fun _ => 7)) (Image.mk 2 2 (fun _ => 9))
          5).data (y * (Image.mk 2 2 (fun _ => 9)).width + x) =
          if truncU8 (gradient_at_xy (Image.mk 2 2 (fun _ => 7)) x y) > 5
          then 255 else 0)) ∧
    (∀ x y, x < (Image.mk 2 2 (fun _ => 9)).width →
      y < (Image.mk 2 2 (fun _ => 9)).height →
      (edges (Image.mk 2 2 (fun _ => 7)) (Image.mk 2 2 (fun _ => 9))
        5).data (y * (Image.mk 2 2 (fun _ => 9)).width + x) = 0 ∨
      (edges (Image.mk 2 2 (fun _ => 7)) (Image.mk 2 2 (fun _ => 9))
        5).data (y * (Image.mk 2 2 (fun _ => 9)).width + x) = 255)) :=
  ⟨⟨rfl, rfl, by decide, by decide⟩,
    edges_binarizes (Image.mk 2 2 (fun _ => 7)) (Image.mk 2 2 (fun _ => 9))
      5 rfl rfl (by decide) (by decide)⟩
